import Mathlib

/-!
# Verification of the binary max-heap engine specification

The repository (`rust-playground`, scenario 01) exercises `std::collections::BinaryHeap`
throughout `binaryheap_examples.rs`; the heap engine itself (backing sequence, sift-up,
sift-down, bulk build) lives outside the repository sources, so the engine is modelled
here from the specification (§3 Data model, §4.1 Binary Heap Engine) and the claims are
settled against that model.  The backing storage is a 0-indexed sequence (`List α`),
elements are compared by a total order (`LinearOrder α`), and each operation follows
the spec's algorithm text.  Recursive walks (sift-up, sift-down, drain-by-pop) are
written with an explicit structural gas argument that is always sufficient for the
lengths involved, keeping every definition kernel-executable.
-/

set_option linter.unusedSectionVars false

namespace HeapSpec

variable {α : Type} [LinearOrder α] [Inhabited α]

/-- Modelled from the spec: element access into the 0-indexed backing sequence
(out-of-range reads never occur along the algorithms' guarded paths). -/
def geti (l : List α) (i : Nat) : α := l.getD i default

/-- Modelled from the spec: exchange the elements at two indices of the backing
sequence (used by sift-up, sift-down and pop); indices are always in bounds at
every call site. -/
def swap (l : List α) (i j : Nat) : List α :=
  if i < l.length ∧ j < l.length then (l.set i (geti l j)).set j (geti l i) else l

theorem geti_eq_getElem (l : List α) (i : Nat) (h : i < l.length) :
    geti l i = l[i] := by
  simp [geti, List.getD_eq_getElem?_getD, List.getElem?_eq_getElem h]

@[simp] theorem length_swap (l : List α) (i j : Nat) :
    (swap l i j).length = l.length := by
  unfold swap; split <;> simp

theorem geti_set (l : List α) (i k : Nat) (a : α) (hi : i < l.length) :
    geti (l.set i a) k = if k = i then a else geti l k := by
  simp only [geti, List.getD_eq_getElem?_getD, List.getElem?_set]
  rcases eq_or_ne i k with rfl | h
  · simp [hi]
  · simp [h, Ne.symm h]

theorem geti_swap (l : List α) (i j k : Nat) (hi : i < l.length) (hj : j < l.length) :
    geti (swap l i j) k = if k = j then geti l i else if k = i then geti l j else geti l k := by
  unfold swap
  rw [if_pos ⟨hi, hj⟩]
  rw [geti_set (l.set i (geti l j)) j k (geti l i) (by simpa using hj),
    geti_set l i k (geti l j) hi]

theorem count_set (l : List α) (i : Nat) (b x : α) (hi : i < l.length) :
    (l.set i b).count x + (if geti l i = x then 1 else 0) =
      l.count x + (if b = x then 1 else 0) := by
  induction l generalizing i with
  | nil => simp at hi
  | cons a t ih =>
    cases i with
    | zero =>
      simp only [List.set_cons_zero, List.count_cons, geti, List.getD_cons_zero,
        beq_iff_eq]
      split_ifs <;> omega
    | succ n =>
      simp only [List.set_cons_succ, List.count_cons, geti, List.getD_cons_succ,
        beq_iff_eq]
      have h2 := ih n (by simpa using hi)
      simp only [geti] at h2
      split_ifs at h2 ⊢ <;> omega

theorem swap_perm (l : List α) (i j : Nat) : (swap l i j).Perm l := by
  unfold swap
  split
  case isFalse => exact List.Perm.refl l
  case isTrue h =>
    obtain ⟨hi, hj⟩ := h
    rcases eq_or_ne i j with rfl | hij
    · rw [List.perm_iff_count]
      intro x
      have h1 := count_set l i (geti l i) x hi
      have h2 := count_set (l.set i (geti l i)) i (geti l i) x (by simpa using hi)
      have hg : geti (l.set i (geti l i)) i = geti l i := by
        rw [geti_set l i i (geti l i) hi]; simp
      rw [hg] at h2
      split_ifs at h1 h2 <;> omega
    · rw [List.perm_iff_count]
      intro x
      have h1 := count_set l i (geti l j) x hi
      have h2 := count_set (l.set i (geti l j)) j (geti l i) x (by simpa using hj)
      have hg : geti (l.set i (geti l j)) j = geti l j := by
        rw [geti_set l i j (geti l j) hi]; simp [Ne.symm hij]
      rw [hg] at h2
      split_ifs at h1 h2 <;> omega

/-- Modelled from the spec: the max-heap invariant of §3 — for every index `i`
with children at `2i+1` and `2i+2` (0-indexed), `element[i] >= element[2i+1]`
and `element[i] >= element[2i+2]`, whenever those children exist. -/
def heapProp (l : List α) : Prop :=
  ∀ i < l.length,
    (2 * i + 1 < l.length → geti l (2 * i + 1) ≤ geti l i) ∧
    (2 * i + 2 < l.length → geti l (2 * i + 2) ≤ geti l i)

instance (l : List α) : Decidable (heapProp l) := by
  unfold heapProp; infer_instance

/-- Parent-edge form of the invariant, restricted to parents at index `s` or
deeper: every in-bounds child whose parent index `(c-1)/2` is at least `s` is
at most its parent.  `heapFrom l 0` is the full invariant. -/
def heapFrom (l : List α) (s : Nat) : Prop :=
  ∀ c, 0 < c → c < l.length → s ≤ (c - 1) / 2 → geti l c ≤ geti l ((c - 1) / 2)

theorem heapProp_iff_heapFrom (l : List α) : heapProp l ↔ heapFrom l 0 := by
  constructor
  · intro h c hc hcl _
    have hp : (c - 1) / 2 < l.length := by omega
    have := h ((c - 1) / 2) hp
    rcases Nat.even_or_odd c with he | ho
    · have : c = 2 * ((c - 1) / 2) + 2 := by
        rcases he with ⟨k, hk⟩; omega
      rw [this] at hcl ⊢
      have h2 := (h ((c - 1) / 2) hp).2
      have hx : 2 * ((2 * ((c - 1) / 2) + 2 - 1) / 2) + 2 = 2 * ((c - 1) / 2) + 2 := by
        omega
      have hy : (2 * ((c - 1) / 2) + 2 - 1) / 2 = (c - 1) / 2 := by omega
      rw [hy]
      exact h2 (by omega)
    · have hc2 : c = 2 * ((c - 1) / 2) + 1 := by
        rcases ho with ⟨k, hk⟩; omega
      rw [hc2] at hcl ⊢
      have hy : (2 * ((c - 1) / 2) + 1 - 1) / 2 = (c - 1) / 2 := by omega
      rw [hy]
      exact (h ((c - 1) / 2) hp).1 (by omega)
  · intro h i _
    constructor
    · intro hcl
      have hv := h (2 * i + 1) (by omega) hcl (by omega)
      rw [show (2 * i + 1 - 1) / 2 = i by omega] at hv
      exact hv
    · intro hcl
      have hv := h (2 * i + 2) (by omega) hcl (by omega)
      rw [show (2 * i + 2 - 1) / 2 = i by omega] at hv
      exact hv

/-- Modelled from the spec: sift-down (§4 `pop`): starting at a hole index,
repeatedly compare with the larger of the two children; if that child is
greater, swap and continue; stop when no child is greater or no children
remain.  The structural `gas` argument is always at least `l.length - i`
at every call site, which makes it semantically inert. -/
def siftDownAux : Nat → List α → Nat → List α
  | 0, l, _ => l
  | gas + 1, l, i =>
    if 2 * i + 1 < l.length then
      let c := if 2 * i + 2 < l.length ∧ geti l (2 * i + 1) < geti l (2 * i + 2)
               then 2 * i + 2 else 2 * i + 1
      if geti l i < geti l c then siftDownAux gas (swap l i c) c else l
    else l

/-- Modelled from the spec: sift-down entry point (gas `l.length` suffices
because the hole index strictly increases past every level). -/
def siftDown (l : List α) (i : Nat) : List α := siftDownAux l.length l i

/-- Modelled from the spec: sift-up (§4 `push`): while the element is greater
than its parent and not at the root, swap with the parent and continue. -/
def siftUpAux : Nat → List α → Nat → List α
  | 0, l, _ => l
  | gas + 1, l, i =>
    if i = 0 then l
    else
      let p := (i - 1) / 2
      if geti l p < geti l i then siftUpAux gas (swap l i p) p else l

/-- Modelled from the spec: sift-up entry point (gas `i` suffices because the
hole index strictly decreases). -/
def siftUp (l : List α) (i : Nat) : List α := siftUpAux i l i

@[simp] theorem length_siftDownAux (gas : Nat) (l : List α) (i : Nat) :
    (siftDownAux gas l i).length = l.length := by
  induction gas generalizing l i with
  | zero => rfl
  | succ gas ih =>
    simp only [siftDownAux]
    repeat' split
    all_goals simp [ih]

@[simp] theorem length_siftDown (l : List α) (i : Nat) :
    (siftDown l i).length = l.length := length_siftDownAux _ _ _

@[simp] theorem length_siftUpAux (gas : Nat) (l : List α) (i : Nat) :
    (siftUpAux gas l i).length = l.length := by
  induction gas generalizing l i with
  | zero => rfl
  | succ gas ih =>
    simp only [siftUpAux]
    repeat' split
    all_goals simp [ih]

@[simp] theorem length_siftUp (l : List α) (i : Nat) :
    (siftUp l i).length = l.length := length_siftUpAux _ _ _

theorem siftDownAux_perm (gas : Nat) (l : List α) (i : Nat) :
    (siftDownAux gas l i).Perm l := by
  induction gas generalizing l i with
  | zero => exact List.Perm.refl l
  | succ gas ih =>
    simp only [siftDownAux]
    repeat' split
    all_goals first
    | exact (ih _ _).trans (swap_perm _ _ _)
    | exact List.Perm.refl l

theorem siftDown_perm (l : List α) (i : Nat) : (siftDown l i).Perm l :=
  siftDownAux_perm _ _ _

theorem siftUpAux_perm (gas : Nat) (l : List α) (i : Nat) :
    (siftUpAux gas l i).Perm l := by
  induction gas generalizing l i with
  | zero => exact List.Perm.refl l
  | succ gas ih =>
    simp only [siftUpAux]
    repeat' split
    all_goals first
    | exact (ih _ _).trans (swap_perm _ _ _)
    | exact List.Perm.refl l

theorem siftUp_perm (l : List α) (i : Nat) : (siftUp l i).Perm l :=
  siftUpAux_perm _ _ _

/-- Modelled from the spec: `push(x)` — append `x` at logical index `n`,
increment `n`, then sift the new element upward (§4). -/
def push (l : List α) (x : α) : List α := siftUp (l ++ [x]) l.length

/-- Modelled from the spec: `peek()` — a read-only view of the element at
index 0 (the maximum), or the "empty" signal when `n = 0` (§4). -/
def peek (l : List α) : Option α := l[0]?

/-- Modelled from the spec: `pop()` — remove and return the maximum, or the
"empty" signal when `n = 0`: swap the root with the last logical element,
decrement `n`, then sift the new root downward (§4). -/
def pop (l : List α) : Option (α × List α) :=
  match l with
  | [] => none
  | x :: xs => some (x, siftDown ((swap (x :: xs) 0 xs.length).dropLast) 0)

/-- Modelled from the spec: the full `peek_mut()` transaction — the "empty"
signal when `n = 0`; otherwise the caller overwrites the maximum in place with
an arbitrary value and, on release of the handle, the engine re-establishes
the invariant by sifting the root downward exactly once (§4). -/
def peekMutSet (l : List α) (y : α) : Option (List α) :=
  match l with
  | [] => none
  | _ :: _ => some (siftDown (l.set 0 y) 0)

/-- Modelled from the spec: bottom-up bulk build (§4): sift down every
non-leaf index from the last non-leaf (`n/2 - 1`) down to index 0. -/
def heapifyAux (l : List α) : Nat → List α
  | 0 => siftDown l 0
  | i + 1 => heapifyAux (siftDown l (i + 1)) i

/-- Modelled from the spec: bulk construction from an arbitrary sequence
(§4): place all elements into backing storage, then bottom-up heapify. -/
def heapify (l : List α) : List α :=
  if l.length ≤ 1 then l else heapifyAux l (l.length / 2 - 1)

/-- Modelled from the spec: `append(other)` (§4) — merge all elements of
`other` into this heap by linear-time re-heapify of the concatenated backing
storage, leaving `other` empty; the result is `(new self, new other)`. -/
def appendHeaps (l m : List α) : List α × List α := (heapify (l ++ m), [])

/-- Modelled from the spec: `extend(iterable)` (§4) — insert each produced
element; equivalent to repeated `push`. -/
def extendHeap (l : List α) (xs : List α) : List α := xs.foldl push l

/-- Modelled from the spec: `retain(predicate)` (§4) — remove every element
for which the predicate is false, filtering into a scratch sequence and
re-heapifying. -/
def retain (p : α → Bool) (l : List α) : List α := heapify (l.filter p)

/-- Repeatedly `pop()` until the "empty" signal, collecting the returned
maxima in order (the spec's `into_sorted_sequence()` drain, §4). -/
def popAllAux : Nat → List α → List α
  | 0, _ => []
  | gas + 1, l =>
    match pop l with
    | none => []
    | some (x, l') => x :: popAllAux gas l'

/-- Drain a heap by repeated `pop()`; gas `l.length` suffices because each
successful pop removes exactly one element. -/
def popAll (l : List α) : List α := popAllAux l.length l

/-- Modelled from the spec: `into_sorted_sequence()` (§4) — consume the heap,
repeatedly popping into an output sequence, producing elements in descending
order. -/
def intoSortedSequence (l : List α) : List α := popAll l

/-- Build a heap by pushing the elements of a sequence one at a time. -/
def pushList (l : List α) (xs : List α) : List α := xs.foldl push l

/-- The descending sort of a sequence (greatest first). -/
def sortDesc (l : List α) : List α := l.insertionSort (fun a b => b ≤ a)

/-- The ascending sort of a sequence (least first). -/
def sortAsc (l : List α) : List α := l.insertionSort (fun a b => a ≤ b)

/-- Sift-down repairs the heap: if every edge with parent index `≥ s` is
ordered except possibly the edges into the hole `h`, and the children of the
hole fit below the hole's parent, then after sifting down from `h` every edge
with parent index `≥ s` is ordered. -/
theorem siftDownAux_heapFrom (gas : Nat) (l : List α) (s h : Nat)
    (hgas : l.length ≤ gas + h)
    (hs : s ≤ h)
    (hexc : ∀ c, 0 < c → c < l.length → s ≤ (c - 1) / 2 → (c - 1) / 2 ≠ h →
      geti l c ≤ geti l ((c - 1) / 2))
    (hupper : s < h → ∀ c, 0 < c → c < l.length → (c - 1) / 2 = h →
      geti l c ≤ geti l ((h - 1) / 2)) :
    heapFrom (siftDownAux gas l h) s := by
  induction gas generalizing l h with
  | zero =>
    simp only [siftDownAux]
    intro c hc hcl hsp
    exact hexc c hc hcl hsp (by omega)
  | succ gas ih =>
    by_cases h1 : 2 * h + 1 < l.length
    · have hh : h < l.length := by omega
      set c := if 2 * h + 2 < l.length ∧ geti l (2 * h + 1) < geti l (2 * h + 2)
               then 2 * h + 2 else 2 * h + 1 with hcdef
      have hcb : c < l.length := by
        rw [hcdef]; split
        · omega
        · exact h1
      have hcgt : h < c := by rw [hcdef]; split <;> omega
      have hcpos : 0 < c := by omega
      have hcp : (c - 1) / 2 = h := by rw [hcdef]; split <;> omega
      have hcmax : ∀ c', 0 < c' → c' < l.length → (c' - 1) / 2 = h →
          geti l c' ≤ geti l c := by
        intro c' hpos hlen hpar
        have hcases : c' = 2 * h + 1 ∨ c' = 2 * h + 2 := by omega
        rw [hcdef]
        split
        case isTrue hch =>
          rcases hcases with rfl | rfl
          · exact le_of_lt hch.2
          · exact le_rfl
        case isFalse hch =>
          rcases hcases with rfl | rfl
          · exact le_rfl
          · have : ¬ geti l (2 * h + 1) < geti l (2 * h + 2) := fun hlt =>
              hch ⟨hlen, hlt⟩
            exact le_of_not_lt this
      by_cases h2 : geti l h < geti l c
      · have hstep : siftDownAux (gas + 1) l h = siftDownAux gas (swap l h c) c := by
          rw [siftDownAux]
          simp only [← hcdef, if_pos h1, if_pos h2]
        rw [hstep]
        have gsw : ∀ k, geti (swap l h c) k =
            if k = c then geti l h else if k = h then geti l c else geti l k :=
          fun k => geti_swap l h c k hh hcb
        apply ih (swap l h c) c
        · rw [length_swap]; omega
        · omega
        · intro c' hpos hlen hsp hne
          rw [length_swap] at hlen
          rw [gsw c', gsw ((c' - 1) / 2)]
          by_cases hpa : (c' - 1) / 2 = h
          · by_cases hcc : c' = c
            · subst hcc
              rw [if_pos rfl, hpa, if_neg (by omega), if_pos rfl]
              exact le_of_lt h2
            · rw [if_neg hcc, if_neg (by omega), hpa, if_neg (by omega), if_pos rfl]
              exact hcmax c' hpos hlen hpa
          · have hcc : c' ≠ c := fun hcc => hpa (hcc ▸ hcp)
            by_cases hch : c' = h
            · subst hch
              rw [if_neg (by omega), if_pos rfl, if_neg hne, if_neg hpa]
              rcases lt_or_eq_of_le hs with hslt | hseq
              · exact hupper hslt c hcpos hcb hcp
              · exfalso
                have : c' ≤ (c' - 1) / 2 := hseq ▸ hsp
                omega
            · rw [if_neg hcc, if_neg hch, if_neg hne, if_neg hpa]
              exact hexc c' hpos hlen hsp hpa
        · intro _ c'' hpos hlen hpar
          rw [length_swap] at hlen
          have hgt : c < c'' := by omega
          rw [gsw c'', hcp, gsw h]
          rw [if_neg (by omega), if_neg (by omega), if_neg (by omega), if_pos rfl]
          have hv := hexc c'' hpos hlen (by omega) (by omega)
          rwa [hpar] at hv
      · have hstep : siftDownAux (gas + 1) l h = l := by
          rw [siftDownAux]
          simp only [← hcdef, if_pos h1, if_neg h2]
        rw [hstep]
        intro c' hpos hlen hsp
        by_cases hpa : (c' - 1) / 2 = h
        · rw [hpa]
          exact le_trans (hcmax c' hpos hlen hpa) (le_of_not_lt h2)
        · exact hexc c' hpos hlen hsp hpa
    · have hstep : siftDownAux (gas + 1) l h = l := by
        rw [siftDownAux]
        simp only [if_neg h1]
      rw [hstep]
      intro c' hpos hlen hsp
      by_cases hpa : (c' - 1) / 2 = h
      · exfalso; omega
      · exact hexc c' hpos hlen hsp hpa

/-- Sift-down from hole `h` when everything strictly below `h` is already
ordered yields a heap ordered from `h` on. -/
theorem siftDown_heapFrom (l : List α) (h : Nat) (hf : heapFrom l (h + 1)) :
    heapFrom (siftDown l h) h := by
  apply siftDownAux_heapFrom l.length l h h (by omega) le_rfl
  · intro c hc hcl hp hne
    exact hf c hc hcl (by omega)
  · intro hlt; omega

/-- Sift-up repairs the heap: if every edge is ordered except possibly the
edge from the hole `h` into its parent, and the children of the hole fit
below the hole's parent, sifting up from `h` restores the full invariant. -/
theorem siftUpAux_heapFrom (gas : Nat) (l : List α) (h : Nat)
    (hgas : h ≤ gas)
    (hhb : h < l.length)
    (hexc : ∀ c, 0 < c → c < l.length → c ≠ h → geti l c ≤ geti l ((c - 1) / 2))
    (hlow : ∀ c, 0 < c → c < l.length → (c - 1) / 2 = h →
      geti l c ≤ geti l ((h - 1) / 2)) :
    heapFrom (siftUpAux gas l h) 0 := by
  induction gas generalizing l h with
  | zero =>
    simp only [siftUpAux]
    intro c hc hcl _
    have hch : c ≠ h := by omega
    exact hexc c hc hcl hch
  | succ gas ih =>
    by_cases h0 : h = 0
    · subst h0
      have hstep : siftUpAux (gas + 1) l 0 = l := by
        rw [siftUpAux]; simp
      rw [hstep]
      intro c hc hcl _
      by_cases hpar : (c - 1) / 2 = 0
      · rw [hpar]
        have hv := hlow c hc hcl hpar
        simpa using hv
      · exact hexc c hc hcl (by omega)
    · by_cases h2 : geti l ((h - 1) / 2) < geti l h
      case neg =>
        have hstep : siftUpAux (gas + 1) l h = l := by
          rw [siftUpAux]
          simp only [if_neg h0, if_neg h2]
        rw [hstep]
        intro c hc hcl _
        by_cases hch : c = h
        · subst hch
          exact le_of_not_lt h2
        · exact hexc c hc hcl hch
      case pos =>
        have hstep : siftUpAux (gas + 1) l h = siftUpAux gas (swap l h ((h - 1) / 2)) ((h - 1) / 2) := by
          rw [siftUpAux]
          simp only [if_neg h0, if_pos h2]
        rw [hstep]
        have hple : (h - 1) / 2 < h := by omega
        have hpb : (h - 1) / 2 < l.length := by omega
        have gsw : ∀ k, geti (swap l h ((h - 1) / 2)) k =
            if k = (h - 1) / 2 then geti l h
            else if k = h then geti l ((h - 1) / 2) else geti l k :=
          fun k => geti_swap l h ((h - 1) / 2) k hhb hpb
        have ep : geti (swap l h ((h - 1) / 2)) ((h - 1) / 2) = geti l h := by
          rw [gsw ((h - 1) / 2)]; simp
        have eh : geti (swap l h ((h - 1) / 2)) h = geti l ((h - 1) / 2) := by
          rw [gsw h]; simp [show h ≠ (h - 1) / 2 by omega]
        have eo : ∀ k, k ≠ (h - 1) / 2 → k ≠ h →
            geti (swap l h ((h - 1) / 2)) k = geti l k := by
          intro k hk1 hk2
          rw [gsw k]; simp [hk1, hk2]
        apply ih (swap l h ((h - 1) / 2)) ((h - 1) / 2) (by omega)
          (by rw [length_swap]; omega)
        · -- every ordered edge stays ordered except the one into the new hole
          intro c hc hcl hcp
          rw [length_swap] at hcl
          by_cases hch : c = h
          · subst hch
            rw [eh, ep]
            exact le_of_lt h2
          · rw [eo c hcp hch]
            by_cases hparh : (c - 1) / 2 = h
            · rw [hparh, eh]
              exact hlow c hc hcl hparh
            · by_cases hparp : (c - 1) / 2 = (h - 1) / 2
              · rw [hparp, ep]
                have hv := hexc c hc hcl hch
                rw [hparp] at hv
                exact le_trans hv (le_of_lt h2)
              · rw [eo ((c - 1) / 2) hparp hparh]
                exact hexc c hc hcl hch
        · -- children of the new hole fit below the new hole's parent
          intro c hc hcl hpar
          rw [length_swap] at hcl
          by_cases hp0 : (h - 1) / 2 = 0
          · -- the new hole is the root: its parent index collapses to itself
            have hq : ((h - 1) / 2 - 1) / 2 = (h - 1) / 2 := by omega
            rw [hq, ep]
            by_cases hch : c = h
            · subst hch
              rw [eh]
              exact le_of_lt h2
            · rw [eo c (by omega) hch]
              have hv := hexc c hc hcl hch
              rw [hpar] at hv
              exact le_trans hv (le_of_lt h2)
          · have hgp : ((h - 1) / 2 - 1) / 2 < (h - 1) / 2 := by omega
            rw [eo ((( h - 1) / 2 - 1) / 2) (by omega) (by omega)]
            by_cases hch : c = h
            · rw [hch, eh]
              exact hexc ((h - 1) / 2) (by omega) hpb (by omega)
            · rw [eo c (by omega) hch]
              have h3 := hexc c hc hcl hch
              rw [hpar] at h3
              have h4 := hexc ((h - 1) / 2) (by omega) hpb (by omega)
              exact le_trans h3 h4

theorem geti_append_lt (l : List α) (x : α) (k : Nat) (h : k < l.length) :
    geti (l ++ [x]) k = geti l k := by
  simp [geti, List.getD_eq_getElem?_getD, List.getElem?_append, h]

/-- `push` preserves the heap invariant. -/
theorem push_heapFrom (l : List α) (x : α) (hf : heapFrom l 0) :
    heapFrom (push l x) 0 := by
  unfold push siftUp
  apply siftUpAux_heapFrom l.length (l ++ [x]) l.length le_rfl (by simp)
  · intro c hc hcl hch
    have hcb : c < l.length := by
      simp only [List.length_append, List.length_cons, List.length_nil] at hcl
      omega
    rw [geti_append_lt l x c hcb, geti_append_lt l x ((c - 1) / 2) (by omega)]
    exact hf c hc hcb (Nat.zero_le _)
  · intro c hc hcl hpar
    simp only [List.length_append, List.length_cons, List.length_nil] at hcl
    omega

/-- In a valid heap every element is at most the root. -/
theorem heapFrom_le_root (l : List α) (hf : heapFrom l 0) (i : Nat)
    (hi : i < l.length) : geti l i ≤ geti l 0 := by
  induction i using Nat.strongRecOn with
  | ind i ih =>
    rcases Nat.eq_zero_or_pos i with rfl | hpos
    · exact le_rfl
    · exact le_trans (hf i hpos hi (Nat.zero_le _)) (ih ((i - 1) / 2) (by omega) (by omega))

theorem geti_dropLast (l : List α) (k : Nat) (h : k < l.length - 1) :
    geti l.dropLast k = geti l k := by
  have h1 : k < l.dropLast.length := by simp; omega
  have h2 : k < l.length := by omega
  rw [geti_eq_getElem _ _ h1, geti_eq_getElem _ _ h2]
  exact List.getElem_dropLast l k h1

/-- Everything `pop` guarantees: it returns the root (the maximum), the
remaining backing sequence is one shorter, it is a valid heap, and together
with the returned maximum it is a permutation of the input. -/
theorem pop_spec (l : List α) (v : α) (l' : List α)
    (hf : heapFrom l 0) (h : pop l = some (v, l')) :
    v = geti l 0 ∧ heapFrom l' 0 ∧ (v :: l').Perm l ∧ l'.length + 1 = l.length := by
  match l, h with
  | x :: xs, h =>
    simp only [pop, Option.some_inj, Prod.mk.injEq] at h
    obtain ⟨rfl, hl'⟩ := h
    have hvx : geti (x :: xs) 0 = x := by simp [geti]
    set m := xs.length with hm
    have hlen : (x :: xs).length = m + 1 := by simp
    have hms : m < (x :: xs).length := by simp
    have h0s : 0 < (x :: xs).length := by simp
    have gsw : ∀ k, geti (swap (x :: xs) 0 m) k =
        if k = m then geti (x :: xs) 0 else if k = 0 then geti (x :: xs) m
        else geti (x :: xs) k :=
      fun k => geti_swap (x :: xs) 0 m k h0s hms
    have hlsw : (swap (x :: xs) 0 m).length = m + 1 := by simp
    have hinner : ((swap (x :: xs) 0 m).dropLast).length = m := by
      simp [List.length_dropLast]
    have hinner_geti : ∀ k, k < m →
        geti ((swap (x :: xs) 0 m).dropLast) k =
          if k = 0 then geti (x :: xs) m else geti (x :: xs) k := by
      intro k hk
      rw [geti_dropLast _ _ (by omega), gsw k]
      rcases eq_or_ne k m with rfl | hkm
      · omega
      · rw [if_neg hkm]
    have hfrom1 : heapFrom ((swap (x :: xs) 0 m).dropLast) 1 := by
      intro c hc hcl hsp
      rw [hinner] at hcl
      have hpc : (c - 1) / 2 < c := by omega
      rw [hinner_geti c hcl, hinner_geti ((c - 1) / 2) (by omega)]
      rw [if_neg (by omega), if_neg (by omega)]
      exact hf c hc (by omega) (Nat.zero_le _)
    refine ⟨hvx.symm, ?_, ?_, ?_⟩
    · rw [← hl']
      exact siftDown_heapFrom _ 0 hfrom1
    · have hp1 : l'.Perm ((swap (x :: xs) 0 m).dropLast) := by
        rw [← hl']; exact siftDown_perm _ _
      have hne : swap (x :: xs) 0 m ≠ [] := by
        intro hcon
        have := congrArg List.length hcon
        simp at this
      have hlast : (swap (x :: xs) 0 m).getLast hne = x := by
        rw [List.getLast_eq_getElem, ← geti_eq_getElem _ _ (by omega)]
        rw [hlsw, Nat.add_sub_cancel, gsw m]
        simp [hvx]
      have hgl : (swap (x :: xs) 0 m).dropLast ++ [x] = swap (x :: xs) 0 m := by
        conv_rhs => rw [← List.dropLast_append_getLast hne]
        rw [hlast]
      have c1 : (x :: l').Perm (x :: (swap (x :: xs) 0 m).dropLast) := hp1.cons x
      have c2 : ((swap (x :: xs) 0 m).dropLast ++ [x]).Perm
          (x :: (swap (x :: xs) 0 m).dropLast) := List.perm_append_singleton x _
      have c3 : ((swap (x :: xs) 0 m).dropLast ++ [x]).Perm (x :: xs) := by
        rw [hgl]; exact swap_perm _ _ _
      exact c1.trans (c2.symm.trans c3)
    · rw [← hl']
      rw [length_siftDown, hinner, hlen]

/-- Bottom-up heapify: sifting down indices `i, i-1, ..., 0` turns a heap
valid from `i+1` into a fully valid heap. -/
theorem heapifyAux_heapFrom (l : List α) (i : Nat) (hf : heapFrom l (i + 1)) :
    heapFrom (heapifyAux l i) 0 := by
  induction i generalizing l with
  | zero => exact siftDown_heapFrom l 0 hf
  | succ i ih => exact ih (siftDown l (i + 1)) (siftDown_heapFrom l (i + 1) hf)

theorem heapifyAux_perm (l : List α) (i : Nat) : (heapifyAux l i).Perm l := by
  induction i generalizing l with
  | zero => exact siftDown_perm l 0
  | succ i ih => exact (ih _).trans (siftDown_perm l (i + 1))

/-- Bulk construction always establishes the heap invariant. -/
theorem heapify_heapFrom (l : List α) : heapFrom (heapify l) 0 := by
  unfold heapify
  split
  case isTrue hle =>
    intro c hc hcl hsp
    omega
  case isFalse hgt =>
    apply heapifyAux_heapFrom
    intro c hc hcl hsp
    omega

theorem heapify_perm (l : List α) : (heapify l).Perm l := by
  unfold heapify
  split
  · exact List.Perm.refl l
  · exact heapifyAux_perm _ _

@[simp] theorem length_heapify (l : List α) : (heapify l).length = l.length :=
  (heapify_perm l).length_eq

theorem pop_eq_none_iff (l : List α) : pop l = none ↔ l = [] := by
  cases l <;> simp [pop]

theorem pop_singleton (x : α) : pop [x] = some (x, []) := by
  simp only [pop]
  constructor

/-- Every element of a valid heap is at most the root. -/
theorem heapFrom_mem_le_root (l : List α) (hf : heapFrom l 0) (b : α)
    (hb : b ∈ l) : b ≤ geti l 0 := by
  obtain ⟨i, hi, rfl⟩ := List.getElem_of_mem hb
  rw [← geti_eq_getElem _ _ hi]
  exact heapFrom_le_root l hf i hi

/-- The whole `peek_mut` transaction keeps the heap valid: the new backing
sequence is the old one with the root overwritten, re-heapified. -/
theorem peekMutSet_spec (l : List α) (y : α) (l' : List α)
    (hf : heapFrom l 0) (h : peekMutSet l y = some l') :
    heapFrom l' 0 ∧ l'.Perm (l.set 0 y) ∧ l'.length = l.length := by
  match l, h with
  | x :: xs, h =>
    simp only [peekMutSet, Option.some_inj] at h
    have hfrom1 : heapFrom ((x :: xs).set 0 y) 1 := by
      intro c hc hcl hsp
      rw [List.length_set] at hcl
      rw [geti_set _ _ _ _ (by simp), geti_set _ _ _ _ (by simp)]
      rw [if_neg (by omega), if_neg (by omega)]
      exact hf c hc hcl (Nat.zero_le _)
    refine ⟨?_, ?_, ?_⟩
    · rw [← h]
      exact siftDown_heapFrom _ 0 hfrom1
    · rw [← h]
      exact siftDown_perm _ _
    · rw [← h]
      simp

/-- Draining a valid heap by repeated `pop` yields a permutation of its
contents, sorted in non-increasing order. -/
theorem popAllAux_spec (gas : Nat) (l : List α) (hgas : l.length ≤ gas)
    (hf : heapFrom l 0) :
    (popAllAux gas l).Perm l ∧ List.Sorted (fun a b => b ≤ a) (popAllAux gas l) := by
  induction gas generalizing l with
  | zero =>
    have hnil : l = [] := by
      cases l
      · rfl
      · simp at hgas
    subst hnil
    exact ⟨List.Perm.refl _, List.sorted_nil⟩
  | succ gas ih =>
    rcases hl : pop l with _ | ⟨v, l'⟩
    · have hnil : l = [] := (pop_eq_none_iff l).1 hl
      subst hnil
      simp only [popAllAux, hl]
      exact ⟨List.Perm.refl _, List.sorted_nil⟩
    · obtain ⟨hv, hf', hperm, hlen⟩ := pop_spec l v l' hf hl
      have hih := ih l' (by omega) hf'
      simp only [popAllAux, hl]
      constructor
      · exact (hih.1.cons v).trans hperm
      · rw [List.sorted_cons]
        refine ⟨?_, hih.2⟩
        intro b hb
        have hbl' : b ∈ l' := hih.1.subset hb
        have hbl : b ∈ l := hperm.subset (List.mem_cons_of_mem v hbl')
        rw [hv]
        exact heapFrom_mem_le_root l hf b hbl

theorem popAll_perm (l : List α) (hf : heapFrom l 0) : (popAll l).Perm l :=
  (popAllAux_spec l.length l le_rfl hf).1

theorem popAll_sorted (l : List α) (hf : heapFrom l 0) :
    List.Sorted (fun a b => b ≤ a) (popAll l) :=
  (popAllAux_spec l.length l le_rfl hf).2

theorem sortDesc_perm (l : List α) : (sortDesc l).Perm l :=
  List.perm_insertionSort _ l

theorem sortDesc_sorted (l : List α) :
    List.Sorted (fun a b => b ≤ a) (sortDesc l) := by
  haveI : IsTotal α (fun a b => b ≤ a) := ⟨fun a b => le_total b a⟩
  haveI : IsTrans α (fun a b => b ≤ a) := ⟨fun _ _ _ h1 h2 => le_trans h2 h1⟩
  exact List.sorted_insertionSort _ l

theorem sortAsc_perm (l : List α) : (sortAsc l).Perm l :=
  List.perm_insertionSort _ l

theorem sortAsc_sorted (l : List α) :
    List.Sorted (fun a b => a ≤ b) (sortAsc l) := by
  haveI : IsTotal α (fun a b => a ≤ b) := ⟨fun a b => le_total a b⟩
  haveI : IsTrans α (fun a b => a ≤ b) := ⟨fun _ _ _ h1 h2 => le_trans h1 h2⟩
  exact List.sorted_insertionSort _ l

/-- Two non-increasing sequences over the same multiset are equal. -/
theorem eq_of_perm_sorted_desc (l₁ l₂ : List α) (hp : l₁.Perm l₂)
    (h₁ : List.Sorted (fun a b => b ≤ a) l₁)
    (h₂ : List.Sorted (fun a b => b ≤ a) l₂) : l₁ = l₂ := by
  haveI : IsAntisymm α (fun a b => b ≤ a) := ⟨fun _ _ h1 h2 => le_antisymm h2 h1⟩
  exact List.eq_of_perm_of_sorted hp h₁ h₂

theorem eq_of_perm_sorted_asc (l₁ l₂ : List α) (hp : l₁.Perm l₂)
    (h₁ : List.Sorted (fun a b => a ≤ b) l₁)
    (h₂ : List.Sorted (fun a b => a ≤ b) l₂) : l₁ = l₂ := by
  haveI : IsAntisymm α (fun a b => a ≤ b) := ⟨fun _ _ h1 h2 => le_antisymm h1 h2⟩
  exact List.eq_of_perm_of_sorted hp h₁ h₂

/-- Draining a valid heap gives exactly the descending sort of its contents. -/
theorem popAll_eq_sortDesc (l : List α) (hf : heapProp l) :
    popAll l = sortDesc l := by
  rw [heapProp_iff_heapFrom] at hf
  exact eq_of_perm_sorted_desc _ _
    ((popAll_perm l hf).trans (sortDesc_perm l).symm)
    (popAll_sorted l hf) (sortDesc_sorted l)

/-- The descending sort only depends on the multiset of elements. -/
theorem sortDesc_congr_perm (l₁ l₂ : List α) (h : l₁.Perm l₂) :
    sortDesc l₁ = sortDesc l₂ :=
  eq_of_perm_sorted_desc _ _ ((sortDesc_perm l₁).trans (h.trans (sortDesc_perm l₂).symm))
    (sortDesc_sorted l₁) (sortDesc_sorted l₂)

theorem pushList_heapFrom (xs : List α) (l : List α) (hf : heapFrom l 0) :
    heapFrom (pushList l xs) 0 := by
  induction xs generalizing l with
  | nil => exact hf
  | cons x xs ih => exact ih (push l x) (push_heapFrom l x hf)

theorem pushList_perm (xs : List α) (l : List α) :
    (pushList l xs).Perm (l ++ xs) := by
  induction xs generalizing l with
  | nil => simp [pushList]
  | cons x xs ih =>
    have h1 : (pushList (push l x) xs).Perm (push l x ++ xs) := ih (push l x)
    have h2 : (push l x).Perm (l ++ [x]) := siftUp_perm _ _
    have h3 : (push l x ++ xs).Perm ((l ++ [x]) ++ xs) := h2.append_right xs
    have h4 : ((l ++ [x]) ++ xs) = l ++ (x :: xs) := by simp
    rw [← h4]
    exact h1.trans h3

theorem extendHeap_heapFrom (l : List α) (xs : List α) (hf : heapFrom l 0) :
    heapFrom (extendHeap l xs) 0 := pushList_heapFrom xs l hf

theorem retain_heapFrom (p : α → Bool) (l : List α) :
    heapFrom (retain p l) 0 := heapify_heapFrom _

theorem appendHeaps_heapFrom (l m : List α) :
    heapFrom (appendHeaps l m).1 0 := heapify_heapFrom _

/-- `peek` on the empty heap signals absence. -/
theorem peek_nil : peek ([] : List α) = none := rfl

/-- `peek` on a non-empty heap returns the element at index 0. -/
theorem peek_eq_root (l : List α) (h : l ≠ []) : peek l = some (geti l 0) := by
  match l, h with
  | x :: xs, _ => simp [peek, geti]

/-- `peek` on a valid non-empty heap returns the maximum of the contents. -/
theorem peek_max (l : List α) (hf : heapFrom l 0) (h : l ≠ []) :
    ∃ m, peek l = some m ∧ m ∈ l ∧ ∀ b ∈ l, b ≤ m := by
  refine ⟨geti l 0, peek_eq_root l h, ?_, ?_⟩
  · have h0 : 0 < l.length := List.length_pos.mpr h
    rw [geti_eq_getElem l 0 h0]
    exact List.getElem_mem h0
  · intro b hb
    exact heapFrom_mem_le_root l hf b hb

/-- The public mutating operations of the engine (§4), as explicit events:
`push`/`pop`/`append`/`extend`/`retain` on the current heap, plus bulk build
of a fresh heap. -/
inductive HeapOp (α : Type) where
  | pushOp (x : α)
  | popOp
  | appendOp (other : List α)
  | extendOp (xs : List α)
  | retainOp (p : α → Bool)
  | buildOp (xs : List α)

/-- Apply one operation to the current backing sequence. -/
def applyOp (s : List α) : HeapOp α → List α
  | .pushOp x => push s x
  | .popOp =>
    match pop s with
    | none => s
    | some (_, s') => s'
  | .appendOp other => (appendHeaps s other).1
  | .extendOp xs => extendHeap s xs
  | .retainOp p => retain p s
  | .buildOp xs => heapify xs

/-- Run a sequence of operations starting from the empty heap. -/
def runOps (ops : List (HeapOp α)) : List α := ops.foldl applyOp []

theorem applyOp_heapFrom (s : List α) (op : HeapOp α) (hf : heapFrom s 0) :
    heapFrom (applyOp s op) 0 := by
  cases op with
  | pushOp x => exact push_heapFrom s x hf
  | popOp =>
    simp only [applyOp]
    rcases hl : pop s with _ | ⟨v, s'⟩
    · exact hf
    · exact (pop_spec s v s' hf hl).2.1
  | appendOp other => exact appendHeaps_heapFrom s other
  | extendOp xs => exact extendHeap_heapFrom s xs hf
  | retainOp p => exact retain_heapFrom p s
  | buildOp xs => exact heapify_heapFrom xs

theorem foldl_applyOp_heapFrom (ops : List (HeapOp α)) (s : List α)
    (hf : heapFrom s 0) : heapFrom (ops.foldl applyOp s) 0 := by
  induction ops generalizing s with
  | nil => exact hf
  | cons op ops ih => exact ih (applyOp s op) (applyOp_heapFrom s op hf)

theorem heapFrom_nil (s : Nat) : heapFrom ([] : List α) s := by
  intro c hc hcl hsp
  simp at hcl

/-- Any operation sequence started from the empty heap yields a valid heap. -/
theorem runOps_heapProp (ops : List (HeapOp α)) : heapProp (runOps ops) := by
  rw [heapProp_iff_heapFrom]
  exact foldl_applyOp_heapFrom ops [] (heapFrom_nil 0)

/-- Modelled from the source: `std::cmp::Reverse` — the order-reversing
wrapper used by `min_heap_with_reverse`, `practical_k_largest` and
`practical_merge_sorted_lists` in `binaryheap_examples.rs`. -/
structure Reverse (β : Type) where
  val : β

instance {β : Type} [Inhabited β] : Inhabited (Reverse β) := ⟨⟨default⟩⟩

instance {β : Type} [LinearOrder β] : LinearOrder (Reverse β) :=
  LinearOrder.lift' (fun r => OrderDual.toDual r.val) (by
    intro a b h
    have hv : a.val = b.val := OrderDual.toDual.injective h
    cases a
    cases b
    simpa using hv)

/-- The wrapper inverts the order: `Reverse a ≤ Reverse b` iff `b ≤ a`. -/
theorem Reverse.le_iff {β : Type} [LinearOrder β] (a b : Reverse β) :
    a ≤ b ↔ b.val ≤ a.val := Iff.rfl

/-- A successful `pop` shrinks the backing sequence by exactly one, with no
validity assumption. -/
theorem pop_length (l : List α) (v : α) (l' : List α)
    (h : pop l = some (v, l')) : l'.length + 1 = l.length := by
  match l, h with
  | x :: xs, h =>
    simp only [pop, Option.some_inj, Prod.mk.injEq] at h
    obtain ⟨rfl, hl'⟩ := h
    rw [← hl']
    simp [List.length_dropLast]

@[simp] theorem length_push (l : List α) (x : α) :
    (push l x).length = l.length + 1 := by
  simp [push]

/-- A non-increasing list, viewed through the order-reversing wrapper, is
non-decreasing on the wrapped values. -/
theorem sorted_desc_map_val {β : Type} [LinearOrder β] (lR : List (Reverse β))
    (h : List.Sorted (fun a b => b ≤ a) lR) :
    List.Sorted (fun a b : β => a ≤ b) (lR.map Reverse.val) := by
  rw [List.Sorted, List.pairwise_map]
  exact h.imp (fun hab => hab)

/-- C1: after any sequence of push/pop/append/extend/retain/bulk-build
operations starting from the empty heap, the backing sequence satisfies the
max-heap property (`element[i] >= element[2i+1]` and
`element[i] >= element[2i+2]` for every in-bounds child); in particular,
pushing `[3,1,4,1,5,9,2,6]` one element at a time keeps the property after
every push and ends with `peek() = some 9`. -/
theorem claim_C1 :
    (∀ ops : List (HeapOp Int), heapProp (runOps ops)) ∧
    (∀ pre : List Int, pre.IsPrefix [3, 1, 4, 1, 5, 9, 2, 6] →
      heapProp (pushList ([] : List Int) pre)) ∧
    peek (pushList ([] : List Int) [3, 1, 4, 1, 5, 9, 2, 6]) = some 9 := by
  refine ⟨runOps_heapProp, ?_, by decide⟩
  intro pre _
  rw [heapProp_iff_heapFrom]
  exact pushList_heapFrom pre [] (heapFrom_nil 0)

/-- Witness for C1 at a concrete prefix of the scenario's push sequence. -/
theorem claim_C1_witness : heapProp (pushList ([] : List Int) [3, 1, 4]) :=
  claim_C1.2.1 [3, 1, 4] (by decide)

/-- C2: draining a valid heap by repeated `pop` until the absent signal
yields a non-increasing sequence equal to the descending sort of the heap's
element multiset; in particular, draining the heap built from
`[3,1,4,1,5,9,2,6]` yields `[9,6,5,4,3,2,1,1]`. -/
theorem claim_C2 :
    (∀ l : List Int, heapProp l →
      List.Sorted (fun a b => b ≤ a) (popAll l) ∧ popAll l = sortDesc l) ∧
    popAll (pushList ([] : List Int) [3, 1, 4, 1, 5, 9, 2, 6]) =
      [9, 6, 5, 4, 3, 2, 1, 1] := by
  refine ⟨?_, by decide⟩
  intro l hf
  refine ⟨?_, popAll_eq_sortDesc l hf⟩
  rw [heapProp_iff_heapFrom] at hf
  exact popAll_sorted l hf

/-- Witness for C2 at a concrete valid heap. -/
theorem claim_C2_witness :
    popAll (heapify ([3, 1, 4] : List Int)) = sortDesc (heapify ([3, 1, 4] : List Int)) :=
  (claim_C2.1 (heapify [3, 1, 4]) (by decide)).2

/-- C3: the heap-consuming sorted conversion (`into_sorted_sequence`)
produces the heap's elements in descending order (it equals the descending
sort of the contents); in particular, applied to the heap bulk-built from
`[5,2,8,1,9]` it yields `[9,8,5,2,1]`. -/
theorem claim_C3 :
    (∀ l : List Int, heapProp l → intoSortedSequence l = sortDesc l) ∧
    intoSortedSequence (heapify ([5, 2, 8, 1, 9] : List Int)) = [9, 8, 5, 2, 1] := by
  refine ⟨?_, by decide⟩
  intro l hf
  exact popAll_eq_sortDesc l hf

/-- Witness for C3 at a concrete valid heap. -/
theorem claim_C3_witness :
    intoSortedSequence (heapify ([5, 2] : List Int)) = sortDesc (heapify ([5, 2] : List Int)) :=
  claim_C3.1 (heapify [5, 2]) (by decide)

/-- C4: on a valid heap, `peek` returns the absent signal when empty and
otherwise exactly the element at index 0, which is the maximum of the heap's
element multiset. -/
theorem claim_C4 :
    ∀ l : List Int, heapProp l →
      (l = [] → peek l = none) ∧
      (l ≠ [] → peek l = some (geti l 0) ∧
        ∃ m, peek l = some m ∧ m ∈ l ∧ ∀ b ∈ l, b ≤ m) := by
  intro l hf
  rw [heapProp_iff_heapFrom] at hf
  refine ⟨?_, ?_⟩
  · rintro rfl
    exact peek_nil
  · intro hne
    exact ⟨peek_eq_root l hne, peek_max l hf hne⟩

/-- Witness for C4 at a concrete valid heap. -/
theorem claim_C4_witness :
    peek ([9, 5, 1] : List Int) = some (geti [9, 5, 1] 0) ∧
      ∃ m, peek ([9, 5, 1] : List Int) = some m ∧ m ∈ ([9, 5, 1] : List Int) ∧
        ∀ b ∈ ([9, 5, 1] : List Int), b ≤ m :=
  (claim_C4 [9, 5, 1] (by decide)).2 (by decide)

/-- C5: on the empty heap, `peek`, `peek_mut` and `pop` all return the
explicit absent signal (they are total functions, never a panic or abort);
and pushing one element onto the empty heap followed by a pop returns that
element and leaves the heap empty. -/
theorem claim_C5 :
    peek ([] : List Int) = none ∧
    pop ([] : List Int) = none ∧
    (∀ y : Int, peekMutSet ([] : List Int) y = none) ∧
    (∀ x : Int, pop (push ([] : List Int) x) = some (x, [])) := by
  refine ⟨rfl, rfl, fun y => rfl, fun x => ?_⟩
  have hp : push ([] : List Int) x = [x] := rfl
  rw [hp]
  exact pop_singleton x

/-- C6: overwriting the maximum of a valid non-empty heap with an arbitrary
value through the scoped mutable-peek handle and releasing it leaves a valid
heap over the updated multiset whose `peek` is that multiset's maximum. -/
theorem claim_C6 :
    ∀ (l : List Int) (y : Int), heapProp l → l ≠ [] →
      ∃ l', peekMutSet l y = some l' ∧ heapProp l' ∧ l'.Perm (l.set 0 y) ∧
        ∃ m, peek l' = some m ∧ m ∈ l.set 0 y ∧ ∀ b ∈ l.set 0 y, b ≤ m := by
  intro l y hf hne
  rw [heapProp_iff_heapFrom] at hf
  match l, hne with
  | x :: xs, _ =>
    have hsome : peekMutSet (x :: xs) y = some (siftDown ((x :: xs).set 0 y) 0) := rfl
    obtain ⟨hf', hperm, hlen⟩ := peekMutSet_spec (x :: xs) y _ hf hsome
    refine ⟨_, hsome, ?_, hperm, ?_⟩
    · rw [heapProp_iff_heapFrom]
      exact hf'
    · have hne' : siftDown ((x :: xs).set 0 y) 0 ≠ [] := by
        intro hcon
        have := congrArg List.length hcon
        simp at this
      obtain ⟨m, hm1, hm2, hm3⟩ := peek_max _ hf' hne'
      refine ⟨m, hm1, hperm.subset hm2, ?_⟩
      intro b hb
      exact hm3 b (hperm.symm.subset hb)

/-- Witness for C6 at the spec's scenario 4: heap `[10,7,8,3,5,6]`, root
overwritten with `1`. -/
theorem claim_C6_witness :
    ∃ l', peekMutSet ([10, 7, 8, 3, 5, 6] : List Int) 1 = some l' ∧ heapProp l' ∧
      l'.Perm (([10, 7, 8, 3, 5, 6] : List Int).set 0 1) ∧
      ∃ m, peek l' = some m ∧ m ∈ (([10, 7, 8, 3, 5, 6] : List Int).set 0 1) ∧
        ∀ b ∈ (([10, 7, 8, 3, 5, 6] : List Int).set 0 1), b ≤ m :=
  claim_C6 [10, 7, 8, 3, 5, 6] 1 (by decide) (by decide)

/-- C7: size conservation — `push` grows the logical size by exactly one, a
successful `pop` shrinks it by exactly one, and `append` leaves `self` with
the sum of both sizes and `other` empty, holding the combined multiset; in
particular appending the heap built from `[4,5,6]` onto the heap built from
`[1,2,3]` and draining yields `[6,5,4,3,2,1]`. -/
theorem claim_C7 :
    (∀ (l : List Int) (x : Int), (push l x).length = l.length + 1) ∧
    (∀ (l : List Int) (v : Int) (l' : List Int), pop l = some (v, l') →
      l'.length + 1 = l.length) ∧
    (∀ l m : List Int, (appendHeaps l m).1.length = l.length + m.length ∧
      (appendHeaps l m).2.length = 0 ∧ (appendHeaps l m).1.Perm (l ++ m)) ∧
    popAll (appendHeaps (heapify ([1, 2, 3] : List Int))
      (heapify ([4, 5, 6] : List Int))).1 = [6, 5, 4, 3, 2, 1] := by
  refine ⟨fun l x => length_push l x, fun l v l' h => pop_length l v l' h, ?_, by decide⟩
  intro l m
  refine ⟨?_, rfl, heapify_perm _⟩
  simp [appendHeaps]

/-- Witness for C7's pop clause at a concrete heap. -/
theorem claim_C7_witness :
    ([1] : List Int).length + 1 = ([3, 1] : List Int).length :=
  claim_C7.2.1 [3, 1] 3 [1] (by decide)

/-- C8: building a heap from a sequence `S` by bulk construction and by
pushing elements one at a time are equivalent — converting either heap to a
sorted sequence yields the same descending sort of `S`, for every `S`
(including empty, singleton and all-equal sequences). -/
theorem claim_C8 :
    ∀ S : List Int,
      intoSortedSequence (heapify S) = sortDesc S ∧
      intoSortedSequence (pushList ([] : List Int) S) = sortDesc S := by
  intro S
  unfold intoSortedSequence
  constructor
  · rw [popAll_eq_sortDesc (heapify S) (by
      rw [heapProp_iff_heapFrom]; exact heapify_heapFrom S)]
    exact sortDesc_congr_perm _ _ (heapify_perm S)
  · rw [popAll_eq_sortDesc (pushList [] S) (by
      rw [heapProp_iff_heapFrom]; exact pushList_heapFrom S [] (heapFrom_nil 0))]
    apply sortDesc_congr_perm
    have := pushList_perm S ([] : List Int)
    simpa using this

/-- C9: pushing every element of a sequence wrapped in the order-reversing
`Reverse` adapter into the max-heap and draining yields the elements in
ascending order, and `peek` returns the wrapped minimum — min-heap behaviour
obtained purely by composition with the wrapper. -/
theorem claim_C9 :
    ∀ S : List Int,
      ((popAll (pushList ([] : List (Reverse Int)) (S.map Reverse.mk))).map
        Reverse.val = sortAsc S) ∧
      (S ≠ [] → ∃ m, peek (pushList ([] : List (Reverse Int)) (S.map Reverse.mk)) =
        some (Reverse.mk m) ∧ m ∈ S ∧ ∀ x ∈ S, m ≤ x) := by
  intro S
  have hheap : heapFrom (pushList ([] : List (Reverse Int)) (S.map Reverse.mk)) 0 :=
    pushList_heapFrom _ [] (heapFrom_nil 0)
  have hperm : (pushList ([] : List (Reverse Int)) (S.map Reverse.mk)).Perm
      (S.map Reverse.mk) := by
    have := pushList_perm (S.map Reverse.mk) ([] : List (Reverse Int))
    simpa using this
  constructor
  · apply eq_of_perm_sorted_asc
    · have h1 : (popAll (pushList ([] : List (Reverse Int)) (S.map Reverse.mk))).Perm
          (S.map Reverse.mk) := (popAll_perm _ hheap).trans hperm
      have h2 := h1.map Reverse.val
      have h3 : (S.map Reverse.mk).map Reverse.val = S := by
        simp [List.map_map, Function.comp_def]
      rw [h3] at h2
      exact h2.trans (sortAsc_perm S).symm
    · exact sorted_desc_map_val _ (popAll_sorted _ hheap)
    · exact sortAsc_sorted S
  · intro hne
    have hne' : pushList ([] : List (Reverse Int)) (S.map Reverse.mk) ≠ [] := by
      intro hcon
      have hlen := hperm.length_eq
      rw [hcon] at hlen
      simp at hlen
      exact hne (List.length_eq_zero.1 hlen.symm)
    obtain ⟨m, hm1, hm2, hm3⟩ := peek_max _ hheap hne'
    refine ⟨m.val, ?_, ?_, ?_⟩
    · rw [hm1]
    · have : m ∈ S.map Reverse.mk := hperm.subset hm2
      obtain ⟨s, hs, rfl⟩ := List.mem_map.1 this
      exact hs
    · intro x hx
      have hmem : Reverse.mk x ∈ pushList ([] : List (Reverse Int)) (S.map Reverse.mk) :=
        hperm.symm.subset (List.mem_map_of_mem Reverse.mk hx)
      exact (Reverse.le_iff _ _).1 (hm3 _ hmem)

/-- Witness for C9's peek clause at a concrete sequence. -/
theorem claim_C9_witness :
    ∃ m, peek (pushList ([] : List (Reverse Int)) (([3, 1, 4] : List Int).map Reverse.mk)) =
      some (Reverse.mk m) ∧ m ∈ ([3, 1, 4] : List Int) ∧ ∀ x ∈ ([3, 1, 4] : List Int), m ≤ x :=
  (claim_C9 [3, 1, 4]).2 (by decide)

/-- Modelled from the source: the heap entry `(value, list_index, element_index)`
of `merge_k_sorted` (`binaryheap_examples.rs`, `practical_merge_sorted_lists`),
compared like the Rust tuple `(i8, usize, usize)`: lexicographically. -/
structure Entry where
  val : Int
  li : Nat
  ei : Nat

instance : Inhabited Entry := ⟨⟨0, 0, 0⟩⟩

/-- The lexicographic key realising the Rust tuple ordering of `Entry`. -/
def entryKey (e : Entry) : Int ×ₗ (Nat ×ₗ Nat) := toLex (e.val, toLex (e.li, e.ei))

instance : LinearOrder Entry :=
  LinearOrder.lift' entryKey (by
    intro a b h
    have h1 := toLex.injective h
    have h2 : a.val = b.val := congrArg Prod.fst h1
    have h3 := toLex.injective (congrArg Prod.snd h1)
    have h4 : a.li = b.li := congrArg Prod.fst h3
    have h5 : a.ei = b.ei := congrArg Prod.snd h3
    cases a
    cases b
    simp only at h2 h4 h5
    rw [h2, h4, h5])

/-- Tuple order is primarily by value: a lex-smaller entry has a `≤` value. -/
theorem Entry.le_val {a b : Entry} (h : a ≤ b) : a.val ≤ b.val := by
  have h' : entryKey a ≤ entryKey b := h
  rcases (Prod.Lex.le_iff _ _).1 h' with hlt | ⟨heq, _⟩
  · exact le_of_lt hlt
  · exact le_of_eq heq

/-- Modelled from the source: the initialisation loop of `merge_k_sorted` —
for each list (with its index), if it is non-empty, push
`Reverse((list[0], list_idx, 0))` onto the heap. -/
def initHeap : List (List Int) → Nat → List (Reverse Entry) → List (Reverse Entry)
  | [], _, h => h
  | l :: rest, li, h =>
    initHeap rest (li + 1) (if l = [] then h else push h (Reverse.mk ⟨geti l 0, li, 0⟩))

/-- Modelled from the source: the main loop of `merge_k_sorted` — pop the
least `(val, list_idx, elem_idx)` entry, append `val` to the result, and push
the next element of the same list when one remains.  The structural `gas` is
a termination artifact; total remaining work strictly decreases each
iteration, so the gas chosen in `merge_k_sorted` never runs out. -/
def mergeLoop (lists : List (List Int)) : Nat → List (Reverse Entry) → List Int → List Int
  | 0, _, res => res
  | gas + 1, h, res =>
    match pop h with
    | none => res
    | some (e, h') =>
      let nextIdx := e.val.ei + 1
      let h'' := if nextIdx < (lists.getD e.val.li []).length
                 then push h' (Reverse.mk ⟨geti (lists.getD e.val.li []) nextIdx, e.val.li, nextIdx⟩)
                 else h'
      mergeLoop lists gas h'' (res ++ [e.val.val])

/-- The remaining work: one unit per heap entry plus the length of the
unconsumed tail of the entry's list. -/
def mergeGas (lists : List (List Int)) (h : List (Reverse Entry)) : Nat :=
  h.length + (h.map (fun e => (lists.getD e.val.li []).length - e.val.ei)).sum

/-- Modelled from the source: `merge_k_sorted(lists)` — build the initial
heap from the first element of every non-empty list, then drain it with the
merge loop into the output vector. -/
def merge_k_sorted (lists : List (List Int)) : List Int :=
  mergeLoop lists (mergeGas lists (initHeap lists 0 [])) (initHeap lists 0 []) []

/-- The entry of a heap cell refers to a real position of the input lists
and carries that position's value. -/
def entryOk (lists : List (List Int)) (e : Reverse Entry) : Prop :=
  e.val.li < lists.length ∧ e.val.ei < (lists.getD e.val.li []).length ∧
    e.val.val = geti (lists.getD e.val.li []) e.val.ei

/-- The multiset of not-yet-emitted input elements referenced by the heap. -/
def suffixes (lists : List (List Int)) (h : List (Reverse Entry)) : List Int :=
  (h.map (fun e => (lists.getD e.val.li []).drop e.val.ei)).flatten

theorem suffixes_perm (lists : List (List Int)) {h₁ h₂ : List (Reverse Entry)}
    (hp : h₁.Perm h₂) : (suffixes lists h₁).Perm (suffixes lists h₂) :=
  (hp.map _).flatten

theorem mergeGas_perm (lists : List (List Int)) {h₁ h₂ : List (Reverse Entry)}
    (hp : h₁.Perm h₂) : mergeGas lists h₁ = mergeGas lists h₂ := by
  unfold mergeGas
  rw [hp.length_eq, (hp.map _).sum_eq]

theorem mergeGas_cons (lists : List (List Int)) (e : Reverse Entry)
    (t : List (Reverse Entry)) :
    mergeGas lists (e :: t) =
      1 + ((lists.getD e.val.li []).length - e.val.ei) + mergeGas lists t := by
  simp [mergeGas]
  omega

theorem push_perm (l : List α) (x : α) : (push l x).Perm (l ++ [x]) :=
  siftUp_perm _ _

theorem push_perm_cons (l : List α) (x : α) : (push l x).Perm (x :: l) :=
  (push_perm l x).trans (List.perm_append_singleton x l)

theorem mem_push {l : List α} {x e : α} (h : e ∈ push l x) : e ∈ l ∨ e = x := by
  have hm := (push_perm l x).subset h
  rcases List.mem_append.1 hm with h1 | h1
  · exact Or.inl h1
  · exact Or.inr (List.mem_singleton.1 h1)

theorem getD_mem (ls : List (List Int)) (i : Nat) (h : i < ls.length) :
    ls.getD i [] ∈ ls := by
  rw [List.getD_eq_getElem?_getD, List.getElem?_eq_getElem h]
  simp only [Option.getD_some]
  exact List.getElem_mem h

theorem sorted_geti_le (L : List Int)
    (hL : List.Sorted (fun a b : Int => a ≤ b) L)
    (i j : Nat) (hij : i ≤ j) (hj : j < L.length) : geti L i ≤ geti L j := by
  rcases lt_or_eq_of_le hij with hlt | rfl
  · rw [geti_eq_getElem _ _ (by omega), geti_eq_getElem _ _ hj]
    exact List.pairwise_iff_getElem.1 hL i j (by omega) hj hlt
  · exact le_rfl

/-- The first-element entries contributed by the lists from index `li` on. -/
def entriesFrom : List (List Int) → Nat → List (Reverse Entry)
  | [], _ => []
  | l :: rest, li =>
    (if l = [] then [] else [Reverse.mk ⟨geti l 0, li, 0⟩]) ++ entriesFrom rest (li + 1)

theorem initHeap_heapFrom (ls : List (List Int)) (li : Nat)
    (h0 : List (Reverse Entry)) (hf : heapFrom h0 0) :
    heapFrom (initHeap ls li h0) 0 := by
  induction ls generalizing li h0 with
  | nil => exact hf
  | cons l rest ih =>
    by_cases hl : l = []
    · simp only [initHeap, if_pos hl]
      exact ih _ _ hf
    · simp only [initHeap, if_neg hl]
      exact ih _ _ (push_heapFrom _ _ hf)

theorem initHeap_perm (ls : List (List Int)) (li : Nat)
    (h0 : List (Reverse Entry)) :
    (initHeap ls li h0).Perm (h0 ++ entriesFrom ls li) := by
  induction ls generalizing li h0 with
  | nil => simp [initHeap, entriesFrom]
  | cons l rest ih =>
    by_cases hl : l = []
    · simp only [initHeap, if_pos hl, entriesFrom]
      have := ih (li + 1) h0
      simpa [hl] using this
    · simp only [initHeap, if_neg hl, entriesFrom, if_neg hl]
      have h1 := ih (li + 1) (push h0 (Reverse.mk ⟨geti l 0, li, 0⟩))
      have h2 : (push h0 (Reverse.mk ⟨geti l 0, li, 0⟩) ++
          entriesFrom rest (li + 1)).Perm
          ((h0 ++ [Reverse.mk ⟨geti l 0, li, 0⟩]) ++ entriesFrom rest (li + 1)) :=
        (push_perm _ _).append_right _
      have h3 : (h0 ++ [Reverse.mk ⟨geti l 0, li, 0⟩]) ++ entriesFrom rest (li + 1) =
          h0 ++ ([Reverse.mk ⟨geti l 0, li, 0⟩] ++ entriesFrom rest (li + 1)) := by
        simp
      rw [h3] at h2
      exact h1.trans h2

theorem entriesFrom_mem (ls : List (List Int)) (k : Nat) (e : Reverse Entry)
    (he : e ∈ entriesFrom ls k) :
    ∃ j, j < ls.length ∧ e.val.li = k + j ∧ e.val.ei = 0 ∧ ls.getD j [] ≠ [] ∧
      e.val.val = geti (ls.getD j []) 0 := by
  induction ls generalizing k with
  | nil => simp [entriesFrom] at he
  | cons l rest ih =>
    simp only [entriesFrom, List.mem_append] at he
    rcases he with h1 | h1
    · by_cases hl : l = []
      · rw [if_pos hl] at h1
        simp at h1
      · rw [if_neg hl] at h1
        have he : e = Reverse.mk ⟨geti l 0, k, 0⟩ := List.mem_singleton.1 h1
        subst he
        exact ⟨0, by simp, by simp, rfl, by simpa using hl, by simp⟩
    · obtain ⟨j, hj, hli, hei, hne, hval⟩ := ih (k + 1) h1
      exact ⟨j + 1, by simp; omega, by omega, hei, by simpa using hne, by simpa using hval⟩

theorem entriesFrom_suffix_flatten (full : List (List Int)) :
    ∀ (ls : List (List Int)) (k : Nat),
    (∀ j, j < ls.length → full.getD (k + j) [] = ls.getD j []) →
    ((entriesFrom ls k).map
      (fun e => (full.getD e.val.li []).drop e.val.ei)).flatten = ls.flatten := by
  intro ls
  induction ls with
  | nil => intro k _; simp [entriesFrom]
  | cons l rest ih =>
    intro k hk
    have hk0 : full.getD k [] = l := by
      have := hk 0 (by simp)
      simpa using this
    have hkrest : ∀ j, j < rest.length → full.getD (k + 1 + j) [] = rest.getD j [] := by
      intro j hj
      have := hk (j + 1) (by simp; omega)
      rw [show k + (j + 1) = k + 1 + j by omega] at this
      simpa using this
    by_cases hl : l = []
    · simp only [entriesFrom, if_pos hl, List.nil_append]
      rw [ih (k + 1) hkrest]
      simp [hl]
    · simp only [entriesFrom, if_neg hl, List.map_append, List.flatten_append,
        List.map_cons, List.map_nil, List.flatten_cons, List.flatten_nil]
      rw [ih (k + 1) hkrest]
      simp only [List.drop_zero, List.flatten_cons]
      rw [hk0]
      simp

/-- The merge-loop invariant: a valid heap of valid frontier entries, an
already-sorted output dominated by every frontier value, enough gas for the
remaining work.  The loop then emits a sorted output holding the output so
far plus every unconsumed suffix. -/
theorem mergeLoop_spec (lists : List (List Int))
    (hs : ∀ l ∈ lists, List.Sorted (fun a b : Int => a ≤ b) l) :
    ∀ (gas : Nat) (h : List (Reverse Entry)) (res : List Int),
    mergeGas lists h ≤ gas →
    heapFrom h 0 →
    (∀ e ∈ h, entryOk lists e) →
    List.Sorted (fun a b : Int => a ≤ b) res →
    (∀ a ∈ res, ∀ e ∈ h, a ≤ e.val.val) →
    List.Sorted (fun a b : Int => a ≤ b) (mergeLoop lists gas h res) ∧
    (mergeLoop lists gas h res).Perm (res ++ suffixes lists h) := by
  intro gas
  induction gas with
  | zero =>
    intro h res hgas hf hok hres hdom
    have hnil : h = [] := by
      have hl0 : h.length = 0 := by
        unfold mergeGas at hgas
        omega
      exact List.length_eq_zero.1 hl0
    subst hnil
    exact ⟨hres, by simp [mergeLoop, suffixes]⟩
  | succ gas ih =>
    intro h res hgas hf hok hres hdom
    rcases hpop : pop h with _ | ⟨e, h'⟩
    · have hnil := (pop_eq_none_iff h).1 hpop
      subst hnil
      exact ⟨hres, by simp [mergeLoop, pop, suffixes]⟩
    · obtain ⟨hv, hf', hperm, hlen⟩ := pop_spec h e h' hf hpop
      have hemem : e ∈ h := hperm.subset (List.mem_cons_self e h')
      obtain ⟨hli, hei, hval⟩ := hok e hemem
      have hLs : List.Sorted (fun a b : Int => a ≤ b) (lists.getD e.val.li []) :=
        hs _ (getD_mem lists e.val.li hli)
      have hmin : ∀ e' ∈ h, e.val.val ≤ e'.val.val := by
        intro e' he'
        have h1 : e' ≤ e := by
          rw [hv]
          exact heapFrom_mem_le_root h hf e' he'
        exact Entry.le_val ((Reverse.le_iff e' e).1 h1)
      have hresdom : ∀ a ∈ res, a ≤ e.val.val := fun a ha => hdom a ha e hemem
      have hmemh' : ∀ e' ∈ h', e' ∈ h := fun e' he' =>
        hperm.subset (List.mem_cons_of_mem e he')
      have hgcons : mergeGas lists h = mergeGas lists (e :: h') :=
        mergeGas_perm lists hperm.symm
      rw [mergeGas_cons] at hgcons
      have hressorted : List.Sorted (fun a b : Int => a ≤ b) (res ++ [e.val.val]) := by
        rw [List.Sorted, List.pairwise_append]
        refine ⟨hres, by simp, ?_⟩
        intro a ha b hb
        rw [List.mem_singleton.1 hb]
        exact hresdom a ha
      have hsufh : (suffixes lists h).Perm
          (((lists.getD e.val.li []).drop e.val.ei) ++ suffixes lists h') := by
        have h1 := suffixes_perm lists hperm.symm
        simpa [suffixes] using h1
      have hdropcons : (lists.getD e.val.li []).drop e.val.ei =
          e.val.val :: (lists.getD e.val.li []).drop (e.val.ei + 1) := by
        rw [hval, geti_eq_getElem _ _ hei]
        exact (List.getElem_cons_drop _ _ hei).symm
      have hstep : mergeLoop lists (gas + 1) h res =
          mergeLoop lists gas
            (if e.val.ei + 1 < (lists.getD e.val.li []).length
             then push h' (Reverse.mk
               ⟨geti (lists.getD e.val.li []) (e.val.ei + 1), e.val.li, e.val.ei + 1⟩)
             else h') (res ++ [e.val.val]) := by
        simp only [mergeLoop, hpop]
      rw [hstep]
      by_cases hnext : e.val.ei + 1 < (lists.getD e.val.li []).length
      case pos =>
        rw [if_pos hnext]
        have hpushperm : (push h' (Reverse.mk
            ⟨geti (lists.getD e.val.li []) (e.val.ei + 1), e.val.li, e.val.ei + 1⟩)).Perm
            (Reverse.mk ⟨geti (lists.getD e.val.li []) (e.val.ei + 1), e.val.li,
              e.val.ei + 1⟩ :: h') := push_perm_cons _ _
        have hgas'' : mergeGas lists (push h' (Reverse.mk
            ⟨geti (lists.getD e.val.li []) (e.val.ei + 1), e.val.li, e.val.ei + 1⟩)) ≤ gas := by
          rw [mergeGas_perm lists hpushperm, mergeGas_cons]
          simp only
          omega
        have hok'' : ∀ e' ∈ push h' (Reverse.mk
            ⟨geti (lists.getD e.val.li []) (e.val.ei + 1), e.val.li, e.val.ei + 1⟩),
            entryOk lists e' := by
          intro e' he'
          rcases mem_push he' with h1 | h1
          · exact hok e' (hmemh' e' h1)
          · subst h1
            exact ⟨hli, hnext, rfl⟩
        have hdom'' : ∀ a ∈ res ++ [e.val.val], ∀ e' ∈ push h' (Reverse.mk
            ⟨geti (lists.getD e.val.li []) (e.val.ei + 1), e.val.li, e.val.ei + 1⟩),
            a ≤ e'.val.val := by
          intro a ha e' he'
          have hstepval : e.val.val ≤ geti (lists.getD e.val.li []) (e.val.ei + 1) := by
            rw [hval]
            exact sorted_geti_le _ hLs e.val.ei (e.val.ei + 1) (by omega) hnext
          have hav : a ≤ e.val.val := by
            rcases List.mem_append.1 ha with h1 | h1
            · exact hresdom a h1
            · rw [List.mem_singleton.1 h1]
          rcases mem_push he' with h1 | h1
          · rcases List.mem_append.1 ha with h2 | h2
            · exact hdom a h2 e' (hmemh' e' h1)
            · rw [List.mem_singleton.1 h2]
              exact hmin e' (hmemh' e' h1)
          · subst h1
            exact le_trans hav hstepval
        obtain ⟨hsort2, hperm2⟩ := ih _ (res ++ [e.val.val]) hgas''
          (push_heapFrom _ _ hf') hok'' hressorted hdom''
        refine ⟨hsort2, ?_⟩
        have hsufpush : (suffixes lists (push h' (Reverse.mk
            ⟨geti (lists.getD e.val.li []) (e.val.ei + 1), e.val.li, e.val.ei + 1⟩))).Perm
            ((lists.getD e.val.li []).drop (e.val.ei + 1) ++ suffixes lists h') := by
          have h1 := suffixes_perm lists hpushperm
          simpa [suffixes] using h1
        have hp3 : (mergeLoop lists gas (push h' (Reverse.mk
            ⟨geti (lists.getD e.val.li []) (e.val.ei + 1), e.val.li, e.val.ei + 1⟩))
            (res ++ [e.val.val])).Perm
            ((res ++ [e.val.val]) ++
              ((lists.getD e.val.li []).drop (e.val.ei + 1) ++ suffixes lists h')) :=
          hperm2.trans (hsufpush.append_left _)
        have heq : (res ++ [e.val.val]) ++
            ((lists.getD e.val.li []).drop (e.val.ei + 1) ++ suffixes lists h') =
            res ++ ((lists.getD e.val.li []).drop e.val.ei ++ suffixes lists h') := by
          rw [hdropcons]
          simp
        rw [heq] at hp3
        exact hp3.trans (hsufh.symm.append_left res)
      case neg =>
        rw [if_neg hnext]
        have hgas'' : mergeGas lists h' ≤ gas := by omega
        have hok'' : ∀ e' ∈ h', entryOk lists e' := fun e' he' => hok e' (hmemh' e' he')
        have hdom'' : ∀ a ∈ res ++ [e.val.val], ∀ e' ∈ h', a ≤ e'.val.val := by
          intro a ha e' he'
          rcases List.mem_append.1 ha with h1 | h1
          · exact hdom a h1 e' (hmemh' e' he')
          · rw [List.mem_singleton.1 h1]
            exact hmin e' (hmemh' e' he')
        obtain ⟨hsort2, hperm2⟩ := ih h' (res ++ [e.val.val]) hgas'' hf' hok''
          hressorted hdom''
        refine ⟨hsort2, ?_⟩
        have hdropnil : (lists.getD e.val.li []).drop (e.val.ei + 1) = [] :=
          List.drop_eq_nil_of_le (by omega)
        have heq : (res ++ [e.val.val]) ++ suffixes lists h' =
            res ++ ((lists.getD e.val.li []).drop e.val.ei ++ suffixes lists h') := by
          rw [hdropcons, hdropnil]
          simp
        rw [heq] at hperm2
        exact hperm2.trans (hsufh.symm.append_left res)

/-- C10: for every vector of input lists, each sorted in ascending order,
`merge_k_sorted` returns a single ascending-sorted vector whose length is the
sum of the input lengths and whose element multiset is the union of the
inputs' elements. -/
theorem claim_C10 :
    ∀ lists : List (List Int),
      (∀ l ∈ lists, List.Sorted (fun a b : Int => a ≤ b) l) →
      List.Sorted (fun a b : Int => a ≤ b) (merge_k_sorted lists) ∧
      (merge_k_sorted lists).length = (lists.map List.length).sum ∧
      (merge_k_sorted lists).Perm lists.flatten := by
  intro lists hs
  have hinitf : heapFrom (initHeap lists 0 []) 0 :=
    initHeap_heapFrom _ _ _ (heapFrom_nil 0)
  have hinitp : (initHeap lists 0 []).Perm (entriesFrom lists 0) := by
    have h1 := initHeap_perm lists 0 []
    simpa using h1
  have hinitok : ∀ e ∈ initHeap lists 0 [], entryOk lists e := by
    intro e he
    obtain ⟨j, hj, hli, hei, hne, hval⟩ := entriesFrom_mem lists 0 e (hinitp.subset he)
    have hli' : e.val.li = j := by omega
    refine ⟨by omega, ?_, ?_⟩
    · rw [hli', hei]
      exact List.length_pos.2 hne
    · rw [hli', hei]
      exact hval
  obtain ⟨hsorted, hpermf⟩ := mergeLoop_spec lists hs
    (mergeGas lists (initHeap lists 0 [])) (initHeap lists 0 []) []
    le_rfl hinitf hinitok List.sorted_nil (by simp)
  have hsuffix : (suffixes lists (initHeap lists 0 [])).Perm lists.flatten := by
    have h1 := suffixes_perm lists hinitp
    have h2 : suffixes lists (entriesFrom lists 0) = lists.flatten := by
      unfold suffixes
      exact entriesFrom_suffix_flatten lists lists 0 (by intro j hj; rw [Nat.zero_add])
    rw [h2] at h1
    exact h1
  have hperm : (merge_k_sorted lists).Perm lists.flatten := by
    unfold merge_k_sorted
    refine hpermf.trans ?_
    simpa using hsuffix
  refine ⟨hsorted, ?_, hperm⟩
  rw [hperm.length_eq]
  exact List.length_flatten lists

/-- Witness for C10 at the source file's example input. -/
theorem claim_C10_witness :
    List.Sorted (fun a b : Int => a ≤ b)
      (merge_k_sorted [[1, 4, 7, 10], [2, 5, 8, 11], [3, 6, 9, 12]]) ∧
    (merge_k_sorted [[1, 4, 7, 10], [2, 5, 8, 11], [3, 6, 9, 12]]).length =
      ([[1, 4, 7, 10], [2, 5, 8, 11], [3, 6, 9, 12]].map List.length).sum ∧
    (merge_k_sorted [[1, 4, 7, 10], [2, 5, 8, 11], [3, 6, 9, 12]]).Perm
      [[1, 4, 7, 10], [2, 5, 8, 11], [3, 6, 9, 12]].flatten :=
  claim_C10 [[1, 4, 7, 10], [2, 5, 8, 11], [3, 6, 9, 12]] (by decide)

end HeapSpec
